import Mathlib

/-!
Verification development for the scheduling core of a sleep-capable
work-stealing thread pool (lazy_pool.hpp) together with the thread-local
worker initialisation code (tls.hpp).

The development shallowly embeds:

1. the packed 64-bit dual counter (low 32 bits thieves, high 32 bits
   actives) and its atomic transitions,
2. the straight-line bodies of thief_round_trip and of the park attempt
   in the worker main loop,
3. a labelled transition system for the whole pool (worker program
   counters, the dual counter word, the event-count epoch, the stop flag
   and the amount of available work), at the granularity of the atomic
   operations appearing in the source,
4. the thread-local guard logic of worker_init and finalize,
5. the pool facade (schedule and the constructor of the distribution).

Machine integers are modelled as Nat with explicit reduction modulo 2 ^ 64
where the source performs unsigned 64-bit arithmetic.
-/

namespace LazyPool

/-- Constant from lazy_pool.hpp line 43: one thief in the low lane. -/
def k_thieve : Nat := 1

/-- Constant from lazy_pool.hpp line 44: k_thieve shifted into the high lane. -/
def k_active : Nat := k_thieve <<< 32

/-- Constant from lazy_pool.hpp line 46: mask of the thief lane. -/
def k_thieve_mask : Nat := k_active - 1

/-- Constant from lazy_pool.hpp line 47: the source writes the bitwise
complement of k_thieve_mask on uint64; on 64 bits this equals
2 ^ 64 - 1 - k_thieve_mask because the mask bits are a submask of the word. -/
def k_active_mask : Nat := 2 ^ 64 - 1 - k_thieve_mask

/-- A packed dual-counter word with active lane a and thief lane t. -/
def word (a t : Nat) : Nat := a * 2 ^ 32 + t

/-- Result of one call of thief_round_trip (lazy_pool.hpp lines 79-97),
restricted to its effects on the shared atomics: the value of the dual
counter after the promotion fetch_add, whether notify_one was called, and
the value after the demotion fetch_sub.  Resumption of the handle itself
is opaque and touches no shared counter. -/
structure RoundTrip where
  notified : Bool
  afterPromote : Nat
  afterDemote : Nat
deriving Repr, DecidableEq

/-- Embedding of thief_round_trip, lazy_pool.hpp lines 79-97.
Line 81 performs the promotion as one fetch_add of (k_active - k_thieve)
and reads the previous thief lane; line 83 calls notify_one exactly when
that previous thief lane equals 1; line 96 performs the demotion as one
fetch_sub of the same constant. -/
def thief_round_trip (d : Nat) : RoundTrip :=
  let prev_thieves := d &&& k_thieve_mask
  let afterPromote := (d + (k_active - k_thieve)) % 2 ^ 64
  let notified := prev_thieves == 1
  let afterDemote := (afterPromote + (2 ^ 64 - (k_active - k_thieve))) % 2 ^ 64
  ⟨notified, afterPromote, afterDemote⟩

/-- Individual observable actions of the park attempt in the worker main
loop (lazy_pool.hpp lines 189-242). -/
inductive ParkAction where
  | prepareWait
  | cancelWait
  | roundTrip
  | fetchSubThieve
  | fetchAddThieve
  | waitOnKey
deriving Repr, DecidableEq

/-- Where control continues after the park attempt. -/
inductive ParkNext where
  | continueAsThief
  | exitWorker
  | sleepUntilNotified
deriving Repr, DecidableEq

/-- Outcome of the park attempt: ordered list of actions taken, the value
of the dual counter afterwards, and where control goes next. -/
structure ParkOutcome where
  actions : List ParkAction
  dual : Nat
  next : ParkNext
deriving Repr, DecidableEq

/-- Embedding of the park attempt, lazy_pool.hpp lines 189-242, as the
straight-line code executed by one worker thread.  Inputs: whether the
re-check of the submission queue finds work (line 191), whether the stop
flag is observed set (line 198), and the dual counter value the
fetch_sub of line 225 operates on.  On the abort path (lines 232-235) the
code jumps to wake_up whose first statement (line 159) re-increments the
thief lane; that fetch_add is included here because it is the immediately
following statement of the same thread. -/
def park_attempt (submissionPending stopRequested : Bool) (d : Nat) : ParkOutcome :=
  if submissionPending then
    { actions := [.prepareWait, .cancelWait, .roundTrip],
      dual := d,
      next := .continueAsThief }
  else if stopRequested then
    { actions := [.prepareWait, .cancelWait],
      dual := d,
      next := .exitWorker }
  else
    let prev := d
    let d1 := (d + (2 ^ 64 - k_thieve)) % 2 ^ 64
    let prev_thieves := prev &&& k_thieve_mask
    let prev_actives := prev &&& k_active_mask
    if prev_thieves = 1 ∧ prev_actives ≠ 0 then
      { actions := [.prepareWait, .fetchSubThieve, .fetchAddThieve],
        dual := (d1 + k_thieve) % 2 ^ 64,
        next := .continueAsThief }
    else
      { actions := [.prepareWait, .fetchSubThieve, .waitOnKey],
        dual := d1,
        next := .sleepUntilNotified }

/-! Thread-local state of tls.hpp.  The two boolean guards (lines 31 and
34) and the engagement state of the two manual_lifetime slots (lines 32
and 35).  manual_lifetime is not part of the sources under inspection; it
is modelled from the spec as scoped manual construction and destruction in
raw storage whose address is fixed for the lifetime of the thread. -/
structure Tls where
  has_fibre : Bool
  has_context : Bool
  contextConstructed : Bool
  fibreConstructed : Bool
deriving Repr, DecidableEq

/-- Thread-local state at thread start: both guards clear, both slots
empty (tls.hpp lines 31-35, constinit initialisers). -/
def tlsFresh : Tls :=
  { has_fibre := false, has_context := false,
    contextConstructed := false, fibreConstructed := false }

/-- How a call of worker_init can terminate.  threwAlreadyInit is the
LF_THROW at tls.hpp line 66; returned means the function runs to its
return statement at line 84; rethrown would be the propagation of the
fibre-constructor error out of the function (the exit the spec describes
for a failing fibre construction). -/
inductive InitExit where
  | threwAlreadyInit
  | returned
  | rethrown
deriving Repr, DecidableEq

/-- Embedding of worker_init, tls.hpp lines 61-85.  The parameter
fibreCtorThrows says whether the fibre constructor at line 74 throws.
LF_TRY and LF_CATCH_ALL are not among the sources under inspection; they
are modelled from the spec as plain try and catch-all blocks of a target
with exceptions enabled.  Note the source catch block at lines 75-77
destroys the thread context and then falls through: there is no rethrow
statement, so control continues at line 79 which sets both guards, and
the function returns the pointer of the destroyed context. -/
def worker_init (tls : Tls) (fibreCtorThrows : Bool) : Tls × InitExit :=
  if tls.has_context && tls.has_fibre then
    (tls, .threwAlreadyInit)
  else
    let tls1 := { tls with contextConstructed := true }
    if fibreCtorThrows then
      let tls2 := { tls1 with contextConstructed := false }
      ({ tls2 with has_fibre := true, has_context := true }, .returned)
    else
      ({ tls1 with fibreConstructed := true,
                   has_fibre := true, has_context := true }, .returned)

/-- How a call of finalize can terminate (tls.hpp lines 97-114). -/
inductive FinalizeExit where
  | threwWrongThread
  | threwNotInitialized
  | finalized
deriving Repr, DecidableEq

/-- Embedding of finalize, tls.hpp lines 97-114.  Pointers are modelled
as Nat addresses; tlsAddr is the address of the thread-local context
storage of the calling thread, which data() of manual_lifetime returns
independently of whether the slot is engaged (modelled from the spec:
manual_lifetime is raw per-thread storage with a fixed address).  The
first check (line 101) throws when the argument differs from that
address; the second (line 105) throws when either guard is clear; only
then are both slots destroyed and both guards cleared. -/
def finalize (tls : Tls) (tlsAddr workerPtr : Nat) : Tls × FinalizeExit :=
  if workerPtr ≠ tlsAddr then
    (tls, .threwWrongThread)
  else if !tls.has_context || !tls.has_fibre then
    (tls, .threwNotInitialized)
  else
    ({ has_fibre := false, has_context := false,
       contextConstructed := false, fibreConstructed := false }, .finalized)

/-! Pool facade, lazy_pool.hpp lines 258-319. -/

/-- Upper bound of the member distribution m_dist as initialised by the
constructor (lazy_pool.hpp line 295): the value n - 1 computed on
std::size_t, i.e. modulo 2 ^ 64. -/
def distUpper (n : Nat) : Nat := (n + (2 ^ 64 - 1)) % 2 ^ 64

/-- Number of contexts the constructor pushes into m_contexts
(lazy_pool.hpp lines 297-300): one per loop iteration, n in total. -/
def contextsLen (n : Nat) : Nat := n

/-- Observable effects of lazy_context submit in order
(lazy_pool.hpp lines 109-112): first the enqueue into the submission
queue of the chosen worker via the base-class submit, then the broadcast
notify_all on the shared notifier. -/
inductive SubmitEffect where
  | enqueue
  | notifyAll
deriving Repr, DecidableEq

/-- The ordered effect list of lazy_context submit
(lazy_pool.hpp lines 109-112). -/
def submitEffects : List SubmitEffect := [.enqueue, .notifyAll]

/-- Embedding of lazy_pool schedule (lazy_pool.hpp line 288) given the
value drawn from m_dist.  The draw is modelled from the spec of
std::uniform_int_distribution: a value in the closed interval from 0 to
the distribution upper bound, each value with equal probability.  The
function returns the index of the context whose submit is called together
with the ordered effects of that submit. -/
def schedule (draw : Nat) : Nat × List SubmitEffect := (draw, submitEffects)

/-! Labelled transition system for the whole pool, at the granularity of
the atomic operations of the source.  Each worker thread executes the
main loop of lazy_context work (lazy_pool.hpp lines 120-243); its control
position between two consecutive shared-memory operations is one program
counter value. -/

/-- Program counter of one worker thread inside the main loop. -/
inductive Pc where
  /-- At label wake_up (line 155), before the fetch_add of line 159.
  Also the position of a worker thread that has not yet entered the loop,
  and of a worker that aborted its sleep (the goto of line 234). -/
  | wakeUp
  /-- In the continue_as_thief region (lines 161-172), searching for
  work; the entry fetch_add has been performed. -/
  | thieve
  /-- After prepare_wait (line 189) with the returned epoch key, before
  one of the three outcomes of the park attempt. -/
  | prepared (key : Nat)
  /-- Inside thief_round_trip, after a promotion fetch_add that read a
  previous thief lane of exactly 1 (line 81), before the notify_one of
  line 85. -/
  | promoteNotify
  /-- Inside thief_round_trip, executing the handle, after promotion and
  any owed notify_one, before the demotion fetch_sub of line 96. -/
  | active
  /-- After the park fetch_sub of line 225 committed to sleeping, before
  the wait of line 240. -/
  | preSleep (key : Nat)
  /-- Blocked inside notifier wait (line 240). -/
  | parked (key : Nat)
  /-- Returned from work via the stop path (line 206). -/
  | exited
deriving Repr, DecidableEq

/-- Global state of the pool: the program counters of the worker threads,
the packed dual counter word, the epoch of the event count, the stop
flag, and the number of available work items (submitted batches plus
stealable deque entries, kept abstract). -/
structure Pool where
  workers : List Pc
  dual : Nat
  epoch : Nat
  stop : Bool
  work : Nat
deriving Repr, DecidableEq

/-- Initial state: n spawned worker threads that have not yet executed
any statement of the loop, dual counter zero (lazy_pool.hpp line 99),
epoch zero, stop clear, no work. -/
def initPool (n : Nat) : Pool :=
  { workers := List.replicate n .wakeUp, dual := 0, epoch := 0,
    stop := false, work := 0 }

/-- One atomic transition of the pool.  Guards on the dual counter are
written exactly as the source reads them, through the lane masks.  The
event count is modelled from the spec of section 4.A: prepare_wait
returns the current epoch as key, every notify advances the epoch, a
wait whose key is stale no longer blocks, and spurious returns from wait
are permitted. -/
inductive Step : Pool → Pool → Prop where
  /-- Line 159: the entry or wake-up fetch_add of k_thieve. -/
  | entry (s : Pool) (i : Nat) (h : s.workers[i]? = some .wakeUp) :
      Step s { s with workers := s.workers.set i .thieve,
                      dual := (s.dual + k_thieve) % 2 ^ 64 }
  /-- Line 81: promotion fetch_add inside thief_round_trip, previous
  thief lane not 1, so no notify is owed.  Requires a work item (the
  preceding try_get_submitted or try_steal succeeded) and consumes it. -/
  | promote (s : Pool) (i : Nat) (h : s.workers[i]? = some .thieve)
      (hwork : 1 ≤ s.work) (hprev : s.dual &&& k_thieve_mask ≠ 1) :
      Step s { s with workers := s.workers.set i .active,
                      dual := (s.dual + (k_active - k_thieve)) % 2 ^ 64,
                      work := s.work - 1 }
  /-- Line 81 when the previous thief lane is exactly 1: the caller is
  the last thief and owes the notify_one of line 85. -/
  | promoteLast (s : Pool) (i : Nat) (h : s.workers[i]? = some .thieve)
      (hwork : 1 ≤ s.work) (hprev : s.dual &&& k_thieve_mask = 1) :
      Step s { s with workers := s.workers.set i .promoteNotify,
                      dual := (s.dual + (k_active - k_thieve)) % 2 ^ 64,
                      work := s.work - 1 }
  /-- Line 85: the owed notify_one; advances the event-count epoch. -/
  | notifyOne (s : Pool) (i : Nat) (h : s.workers[i]? = some .promoteNotify) :
      Step s { s with workers := s.workers.set i .active,
                      epoch := s.epoch + 1 }
  /-- Line 96: demotion fetch_sub at the end of thief_round_trip. -/
  | demote (s : Pool) (i : Nat) (h : s.workers[i]? = some .active) :
      Step s { s with workers := s.workers.set i .thieve,
                      dual := (s.dual + (2 ^ 64 - (k_active - k_thieve))) % 2 ^ 64 }
  /-- A running task forks child work into the deque of its worker. -/
  | fork (s : Pool) (i : Nat) (h : s.workers[i]? = some .active) :
      Step s { s with work := s.work + 1 }
  /-- Line 189: prepare_wait, recording the current epoch as key. -/
  | prepare (s : Pool) (i : Nat) (h : s.workers[i]? = some .thieve) :
      Step s { s with workers := s.workers.set i (.prepared s.epoch) }
  /-- Lines 191-195: the re-check finds a submission; cancel_wait and
  continue as a thief (the subsequent thief_round_trip is the promote
  transition taken from there). -/
  | cancelFound (s : Pool) (i : Nat) (k : Nat)
      (h : s.workers[i]? = some (.prepared k)) (hwork : 1 ≤ s.work) :
      Step s { s with workers := s.workers.set i .thieve }
  /-- Lines 198-206: the stop flag is observed set; cancel_wait and
  return without touching the dual counter (the ghost thief). -/
  | stopExit (s : Pool) (i : Nat) (k : Nat)
      (h : s.workers[i]? = some (.prepared k)) (hstop : s.stop = true) :
      Step s { s with workers := s.workers.set i .exited }
  /-- Line 225 when the value read has thief lane 1 and nonzero active
  lane: the decrement happens, and the branch of line 232 sends the
  worker back to wake_up without sleeping. -/
  | parkAbort (s : Pool) (i : Nat) (k : Nat)
      (h : s.workers[i]? = some (.prepared k))
      (hT : s.dual &&& k_thieve_mask = 1) (hA : s.dual &&& k_active_mask ≠ 0) :
      Step s { s with workers := s.workers.set i .wakeUp,
                      dual := (s.dual + (2 ^ 64 - k_thieve)) % 2 ^ 64 }
  /-- Line 225 in every other case: the decrement happens and the worker
  proceeds towards wait. -/
  | parkCommit (s : Pool) (i : Nat) (k : Nat)
      (h : s.workers[i]? = some (.prepared k))
      (hg : ¬(s.dual &&& k_thieve_mask = 1 ∧ s.dual &&& k_active_mask ≠ 0)) :
      Step s { s with workers := s.workers.set i (.preSleep k),
                      dual := (s.dual + (2 ^ 64 - k_thieve)) % 2 ^ 64 }
  /-- Line 240: the worker blocks inside wait. -/
  | enterWait (s : Pool) (i : Nat) (k : Nat)
      (h : s.workers[i]? = some (.preSleep k)) :
      Step s { s with workers := s.workers.set i (.parked k) }
  /-- Line 240 returning without blocking (stale key or spurious): the
  worker proceeds to the goto of line 242, i.e. to wake_up. -/
  | earlyReturn (s : Pool) (i : Nat) (k : Nat)
      (h : s.workers[i]? = some (.preSleep k)) :
      Step s { s with workers := s.workers.set i .wakeUp }
  /-- Wait returns (notified or spurious); the worker is at the goto of
  line 242, i.e. at wake_up. -/
  | wake (s : Pool) (i : Nat) (k : Nat)
      (h : s.workers[i]? = some (.parked k)) :
      Step s { s with workers := s.workers.set i .wakeUp }
  /-- An external producer calls schedule: the submission is enqueued and
  notify_all advances the epoch (lazy_pool.hpp lines 109-112, 288). -/
  | submitWork (s : Pool) :
      Step s { s with work := s.work + 1, epoch := s.epoch + 1 }
  /-- Shutdown request (clean_up, lines 272-282): the stop flag is set
  and notify_all advances the epoch. -/
  | setStop (s : Pool) :
      Step s { s with stop := true, epoch := s.epoch + 1 }

/-- Reachability of a pool state from the initial state with n workers. -/
inductive Reach (n : Nat) : Pool → Prop where
  | init : Reach n (initPool n)
  | step {s t : Pool} : Reach n s → Step s t → Reach n t

/-- Contribution of one worker position to the thief lane of the dual
counter: a worker counts as a thief from its entry fetch_add until its
promotion, its park decrement, or forever after exiting through the
ghost-thief path. -/
def contribT : Pc → Nat
  | .thieve => 1
  | .prepared _ => 1
  | .exited => 1
  | _ => 0

/-- Contribution of one worker position to the active lane. -/
def contribA : Pc → Nat
  | .promoteNotify => 1
  | .active => 1
  | _ => 0

/-- Sleeper accounting: a worker counts as a sleeper while parked, while
between its park decrement and its wait call, and while at the loop entry
before its fetch_add (not yet entered, or just woken, or compensating an
aborted sleep). -/
def contribS : Pc → Nat
  | .wakeUp => 1
  | .preSleep _ => 1
  | .parked _ => 1
  | _ => 0

/-- Strict parked accounting: only workers blocked inside wait. -/
def contribParked : Pc → Nat
  | .parked _ => 1
  | _ => 0

/-- Sum of thief-lane contributions of all workers. -/
def tCount (s : Pool) : Nat := (s.workers.map contribT).sum

/-- Sum of active-lane contributions of all workers. -/
def aCount (s : Pool) : Nat := (s.workers.map contribA).sum

/-- Number of sleepers in the accounting of contribS. -/
def sCount (s : Pool) : Nat := (s.workers.map contribS).sum

/-- Number of workers blocked inside wait. -/
def parkedCount (s : Pool) : Nat := (s.workers.map contribParked).sum

/-- Key of a prepared, pre-sleep or parked worker. -/
def pcKey : Pc → Option Nat
  | .prepared k => some k
  | .preSleep k => some k
  | .parked k => some k
  | _ => none

/-- Key of a worker that has performed its park decrement (pre-sleep or
parked). -/
def sleeperKey : Pc → Option Nat
  | .preSleep k => some k
  | .parked k => some k
  | _ => none

/-- The dual counter word decodes into the two contribution sums. -/
def Decoded (s : Pool) : Prop := s.dual = aCount s * 2 ^ 32 + tCount s

/-- All recorded keys are at most the current epoch. -/
def KeysBounded (s : Pool) : Prop :=
  ∀ (i k : Nat), (s.workers[i]?).bind pcKey = some k → k ≤ s.epoch

/-- Every worker that performed its park decrement holds a stale key: a
notify has happened since its prepare_wait, so its wait does not block
it indefinitely. -/
def NoDormantSleeper (s : Pool) : Prop :=
  ∀ (i k : Nat), (s.workers[i]?).bind sleeperKey = some k → k < s.epoch

/-- Some worker is at the loop entry (about to re-increment the thief
lane) or owes the post-promotion notify_one. -/
def HasCompensator (s : Pool) : Prop :=
  ∃ (i : Nat), s.workers[i]? = some Pc.wakeUp ∨ s.workers[i]? = some Pc.promoteNotify


/-- Reachable state used to refute the literal reading of invariant I2:
one worker, reachable by entry, prepare_wait and the park decrement, now
between its fetch_sub and its wait call. -/
def c7CexState : Pool :=
  { workers := [Pc.preSleep 0], dual := 0, epoch := 0, stop := false, work := 0 }

/-- Reachable three-worker state satisfying invariant I1: worker 0 is
active, worker 1 is parked, worker 2 has prepared a wait and is about to
attempt the park decrement; the dual counter holds one active and one
thief. -/
def c1PreState : Pool :=
  { workers := [Pc.active, Pc.parked 2, Pc.prepared 2],
    dual := 2 ^ 32 + 1, epoch := 2, stop := false, work := 0 }

/-- The state after the park fetch_sub of worker 2 taken from c1PreState:
the decrement has happened (thief lane now zero, active lane one, a
worker parked), and worker 2 is at wake_up about to compensate. -/
def c1PostState : Pool :=
  { workers := [Pc.active, Pc.parked 2, Pc.wakeUp],
    dual := 2 ^ 32, epoch := 2, stop := false, work := 0 }

/-- Reachable one-worker state with a nonzero active lane, used to
witness the repaired invariant at a state where its hypothesis holds:
the single worker promoted itself as last thief and owes a notify. -/
def c1WitState : Pool :=
  { workers := [Pc.promoteNotify], dual := 2 ^ 32, epoch := 1, stop := false, work := 0 }

/-! Helper lemmas: lane arithmetic of the packed word. -/

lemma k_thieve_eq : k_thieve = 1 := rfl

lemma k_active_eq : k_active = 2 ^ 32 := by decide

lemma k_thieve_mask_eq : k_thieve_mask = 2 ^ 32 - 1 := by decide

lemma k_active_mask_eq : k_active_mask = 2 ^ 64 - 1 - (2 ^ 32 - 1) := by decide

lemma kAT_eq : k_active - k_thieve = 2 ^ 32 - 1 := by decide

lemma word_lo (a t : Nat) (ht : t < 2 ^ 32) : word a t &&& k_thieve_mask = t := by
  rw [word, k_thieve_mask_eq, Nat.and_pow_two_sub_one_eq_mod]
  omega

lemma word_hi (a t : Nat) (ha : a < 2 ^ 32) (ht : t < 2 ^ 32) :
    word a t &&& k_active_mask = a * 2 ^ 32 := by
  rw [word, k_active_mask_eq]
  have hmask : (2 ^ 64 - 1 - (2 ^ 32 - 1) : Nat) = (2 ^ 32 - 1) <<< 32 := by decide
  rw [hmask]
  apply Nat.eq_of_testBit_eq
  intro j
  rw [Nat.testBit_and, Nat.testBit_shiftLeft, Nat.testBit_two_pow_sub_one]
  have hcomm : a * 2 ^ 32 + t = 2 ^ 32 * a + t := by ring
  have hcomm2 : a * 2 ^ 32 = 2 ^ 32 * a := by ring
  rw [hcomm, hcomm2, Nat.testBit_mul_pow_two_add a ht, Nat.testBit_mul_pow_two]
  by_cases hj : j < 32
  · simp [hj, Nat.not_le_of_lt hj]
  · by_cases hj64 : j < 64
    · have h32 : 32 ≤ j := Nat.le_of_not_lt hj
      have hlt : j - 32 < 32 := by omega
      simp [hj, h32, hlt]
    · have h32 : 32 ≤ j := Nat.le_of_not_lt hj
      have hbig : a < 2 ^ (j - 32) :=
        lt_of_lt_of_le ha (Nat.pow_le_pow_right (by norm_num) (by omega))
      have hfalse : Nat.testBit a (j - 32) = false := Nat.testBit_lt_two_pow hbig
      have hge : ¬(j - 32 < 32) := by omega
      simp [hj, h32, hfalse, hge]

lemma word_hi_zero_iff (a t : Nat) (ha : a < 2 ^ 32) (ht : t < 2 ^ 32) :
    word a t &&& k_active_mask = 0 ↔ a = 0 := by
  rw [word_hi a t ha ht]
  constructor
  · intro h
    omega
  · intro h
    omega

lemma word_shr (a t : Nat) (ht : t < 2 ^ 32) : word a t >>> 32 = a := by
  rw [word, Nat.shiftRight_eq_div_pow]
  omega

lemma word_add_thieve (a t : Nat) (ha : a < 2 ^ 32) (ht : t + 1 < 2 ^ 32) :
    (word a t + k_thieve) % 2 ^ 64 = word a (t + 1) := by
  rw [word, word, k_thieve_eq]
  have hpow : (2 : Nat) ^ 64 = 2 ^ 32 * 2 ^ 32 := by norm_num
  omega

lemma word_sub_thieve (a t : Nat) (ha : a < 2 ^ 32) (ht1 : 1 ≤ t) (ht : t < 2 ^ 32) :
    (word a t + (2 ^ 64 - k_thieve)) % 2 ^ 64 = word a (t - 1) := by
  rw [word, word, k_thieve_eq]
  have hpow : (2 : Nat) ^ 64 = 2 ^ 32 * 2 ^ 32 := by norm_num
  omega

lemma word_promote (a t : Nat) (ha : a + 1 < 2 ^ 32) (ht1 : 1 ≤ t) (ht : t < 2 ^ 32) :
    (word a t + (k_active - k_thieve)) % 2 ^ 64 = word (a + 1) (t - 1) := by
  rw [word, word, kAT_eq]
  have hpow : (2 : Nat) ^ 64 = 2 ^ 32 * 2 ^ 32 := by norm_num
  omega

lemma word_demote (a t : Nat) (ha1 : 1 ≤ a) (ha : a < 2 ^ 32) (ht : t + 1 < 2 ^ 32) :
    (word a t + (2 ^ 64 - (k_active - k_thieve))) % 2 ^ 64 = word (a - 1) (t + 1) := by
  rw [word, word, kAT_eq]
  have hpow : (2 : Nat) ^ 64 = 2 ^ 32 * 2 ^ 32 := by norm_num
  omega

/-! Helper lemmas: sums of per-worker contributions. -/

lemma sum_set (l : List Nat) (i x v : Nat) (h : l[i]? = some x) :
    (l.set i v).sum + x = l.sum + v := by
  induction l generalizing i with
  | nil => simp at h
  | cons hd tl ih =>
    cases i with
    | zero =>
      simp at h
      subst h
      simp [List.set]
      omega
    | succ j =>
      simp at h
      have := ih j h
      simp [List.set]
      omega

lemma nat_elem_le_sum (l : List Nat) (i x : Nat) (h : l[i]? = some x) : x ≤ l.sum := by
  induction l generalizing i with
  | nil => simp at h
  | cons hd tl ih =>
    cases i with
    | zero =>
      simp at h
      subst h
      simp
    | succ j =>
      simp at h
      have := ih j h
      simp
      omega

lemma getElem?_map_some {α β : Type} (f : α → β) (l : List α) (i : Nat) (x : α)
    (h : l[i]? = some x) : (l.map f)[i]? = some (f x) := by
  rw [List.getElem?_map, h]
  rfl

lemma sum_map_set {α : Type} (f : α → Nat) (l : List α) (i : Nat) (x v : α)
    (h : l[i]? = some x) :
    (((l.set i v).map f).sum + f x) = ((l.map f).sum + f v) := by
  have hmap : (l.set i v).map f = (l.map f).set i (f v) := by
    rw [List.map_set]
  rw [hmap]
  exact sum_set (l.map f) i (f x) (f v) (getElem?_map_some f l i x h)

lemma elem_le_sum {α : Type} (f : α → Nat) (l : List α) (i : Nat) (x : α)
    (h : l[i]? = some x) : f x ≤ (l.map f).sum :=
  nat_elem_le_sum (l.map f) i (f x) (getElem?_map_some f l i x h)

lemma sum_map_le_length {α : Type} (f : α → Nat) (hf : ∀ x, f x ≤ 1) (l : List α) :
    (l.map f).sum ≤ l.length := by
  induction l with
  | nil => simp
  | cons hd tl ih =>
    simp
    have := hf hd
    omega

lemma contrib_total (pc : Pc) : contribT pc + contribA pc + contribS pc = 1 := by
  cases pc <;> rfl

lemma three_sum (l : List Pc) :
    (l.map contribT).sum + (l.map contribA).sum + (l.map contribS).sum = l.length := by
  induction l with
  | nil => simp
  | cons hd tl ih =>
    simp
    have := contrib_total hd
    omega

lemma contribT_le_one (pc : Pc) : contribT pc ≤ 1 := by cases pc <;> simp [contribT]

lemma contribA_le_one (pc : Pc) : contribA pc ≤ 1 := by cases pc <;> simp [contribA]

lemma counts_lt {n : Nat} (h32 : n < 2 ^ 32) (l : List Pc) (hlen : l.length = n) :
    (l.map contribT).sum < 2 ^ 32 ∧ (l.map contribA).sum < 2 ^ 32 := by
  have h1 := sum_map_le_length contribT contribT_le_one l
  have h2 := sum_map_le_length contribA contribA_le_one l
  omega

lemma lt_length_of_getElem? {α : Type} {l : List α} {i : Nat} {x : α}
    (h : l[i]? = some x) : i < l.length := by
  by_contra hc
  rw [List.getElem?_eq_none (Nat.le_of_not_lt hc)] at h
  simp at h

lemma sleeper_pcKey {pc : Pc} {k : Nat} (h : sleeperKey pc = some k) :
    pcKey pc = some k := by
  cases pc <;> simp [sleeperKey, pcKey] at h ⊢ <;> exact h

lemma comp_preserve (l : List Pc) (i : Nat) (x v : Pc) (h : l[i]? = some x)
    (hx : x ≠ Pc.wakeUp) (hx2 : x ≠ Pc.promoteNotify)
    (hc : ∃ (j : Nat), l[j]? = some Pc.wakeUp ∨ l[j]? = some Pc.promoteNotify) :
    ∃ (j : Nat), (l.set i v)[j]? = some Pc.wakeUp ∨ (l.set i v)[j]? = some Pc.promoteNotify := by
  obtain ⟨j, hj⟩ := hc
  refine ⟨j, ?_⟩
  have hne : i ≠ j := by
    intro he
    subst he
    rcases hj with hj | hj <;> rw [h] at hj <;> injection hj with hj2
    · exact hx hj2
    · exact hx2 hj2
  rw [List.getElem?_set_ne hne]
  exact hj

lemma noDorm_set (l : List Pc) (e e2 : Nat) (he : e ≤ e2) (i : Nat) (v : Pc)
    (hi : i < l.length) (hv : sleeperKey v = none)
    (hnd : ∀ (j k : Nat), (l[j]?).bind sleeperKey = some k → k < e) :
    ∀ (j k : Nat), ((l.set i v)[j]?).bind sleeperKey = some k → k < e2 := by
  intro j k hjk
  by_cases hij : i = j
  · subst hij
    rw [List.getElem?_set_self hi] at hjk
    simp [hv] at hjk
  · rw [List.getElem?_set_ne hij] at hjk
    exact lt_of_lt_of_le (hnd j k hjk) he

lemma keys_set (l : List Pc) (e e2 : Nat) (he : e ≤ e2) (i : Nat) (v : Pc)
    (hi : i < l.length) (hv : ∀ k, pcKey v = some k → k ≤ e2)
    (hk : ∀ (j k : Nat), (l[j]?).bind pcKey = some k → k ≤ e) :
    ∀ (j k : Nat), ((l.set i v)[j]?).bind pcKey = some k → k ≤ e2 := by
  intro j k hjk
  by_cases hij : i = j
  · subst hij
    rw [List.getElem?_set_self hi] at hjk
    cases hb : pcKey v with
    | none => simp [hb] at hjk
    | some k2 =>
      simp [hb] at hjk
      subst hjk
      exact hv k2 hb
  · rw [List.getElem?_set_ne hij] at hjk
    exact le_trans (hk j k hjk) he

lemma noDorm_of_bump (l : List Pc) (e : Nat)
    (hk : ∀ (j k : Nat), (l[j]?).bind pcKey = some k → k ≤ e) :
    ∀ (j k : Nat), (l[j]?).bind sleeperKey = some k → k < e + 1 := by
  intro j k hjk
  cases hj : l[j]? with
  | none => rw [hj] at hjk; simp at hjk
  | some pc =>
    rw [hj] at hjk
    simp at hjk
    have := hk j k (by rw [hj]; simp [sleeper_pcKey hjk])
    omega

lemma init_inv (n : Nat) :
    (initPool n).workers.length = n ∧ Decoded (initPool n) ∧ KeysBounded (initPool n) ∧
    (1 ≤ aCount (initPool n) →
      1 ≤ tCount (initPool n) ∨ NoDormantSleeper (initPool n) ∨ HasCompensator (initPool n)) := by
  refine ⟨by simp [initPool], ?_, ?_, ?_⟩
  · show (0 : Nat) = aCount (initPool n) * 2 ^ 32 + tCount (initPool n)
    have ha : aCount (initPool n) = 0 := by
      simp [aCount, initPool, List.map_replicate, contribA]
    have ht : tCount (initPool n) = 0 := by
      simp [tCount, initPool, List.map_replicate, contribT]
    omega
  · intro i k hik
    simp only [initPool] at hik
    cases hx : (List.replicate n Pc.wakeUp)[i]? with
    | none => rw [hx] at hik; simp at hik
    | some pc =>
      rw [hx] at hik
      have hmem : pc ∈ List.replicate n Pc.wakeUp := List.getElem?_mem hx
      have hpc : pc = Pc.wakeUp := List.eq_of_mem_replicate hmem
      subst hpc
      simp [pcKey] at hik
  · intro ha
    have : aCount (initPool n) = 0 := by
      simp [aCount, initPool, List.map_replicate, contribA]
    omega

lemma reach_inv {n : Nat} {s : Pool} (h32 : n < 2 ^ 32) (hr : Reach n s) :
    s.workers.length = n ∧ Decoded s ∧ KeysBounded s ∧
    (1 ≤ aCount s → 1 ≤ tCount s ∨ NoDormantSleeper s ∨ HasCompensator s) := by
  induction hr with
  | init => exact init_inv n
  | step hr hstep ih =>
    obtain ⟨hlen, hdec, hkeys, hpsi⟩ := ih
    rename_i s0 t0
    have hbounds := counts_lt h32 s0.workers hlen
    have htlt : (s0.workers.map contribT).sum < 2 ^ 32 := hbounds.1
    have halt : (s0.workers.map contribA).sum < 2 ^ 32 := hbounds.2
    have hword : s0.dual = word (s0.workers.map contribA).sum (s0.workers.map contribT).sum := hdec
    cases hstep with
    | entry i h =>
      have hi : i < s0.workers.length := lt_length_of_getElem? h
      have htc := sum_map_set contribT s0.workers i (Pc.wakeUp) (Pc.thieve) h
      have hac := sum_map_set contribA s0.workers i (Pc.wakeUp) (Pc.thieve) h
      have hoT : contribT (Pc.wakeUp) = 0 := rfl
      have hoA : contribA (Pc.wakeUp) = 0 := rfl
      have hnT : contribT (Pc.thieve) = 1 := rfl
      have hnA : contribA (Pc.thieve) = 0 := rfl
      have hlen2 : (s0.workers.set i (Pc.thieve)).length = n := by
        rw [List.length_set]; exact hlen
      have hbound2 := counts_lt h32 (s0.workers.set i Pc.thieve) hlen2
      refine ⟨hlen2, ?_, ?_, ?_⟩
      · show (s0.dual + k_thieve) % 2 ^ 64 =
          ((s0.workers.set i Pc.thieve).map contribA).sum * 2 ^ 32 +
          ((s0.workers.set i Pc.thieve).map contribT).sum
        rw [hword, word_add_thieve (s0.workers.map contribA).sum (s0.workers.map contribT).sum halt (by omega), word]
        omega
      · exact keys_set s0.workers s0.epoch s0.epoch (le_refl _) i (Pc.thieve) hi
          (by intro k2 hk; simp [pcKey] at hk) hkeys
      · intro hA
        left
        show 1 ≤ ((s0.workers.set i (Pc.thieve)).map contribT).sum
        omega
    | promote i h hwork hprev =>
      have hi : i < s0.workers.length := lt_length_of_getElem? h
      have htc := sum_map_set contribT s0.workers i (Pc.thieve) (Pc.active) h
      have hac := sum_map_set contribA s0.workers i (Pc.thieve) (Pc.active) h
      have hoT : contribT (Pc.thieve) = 1 := rfl
      have hoA : contribA (Pc.thieve) = 0 := rfl
      have hnT : contribT (Pc.active) = 0 := rfl
      have hnA : contribA (Pc.active) = 1 := rfl
      have hlen2 : (s0.workers.set i (Pc.active)).length = n := by
        rw [List.length_set]; exact hlen
      have htge : 1 ≤ (s0.workers.map contribT).sum := elem_le_sum contribT s0.workers i Pc.thieve h
      rw [hword, word_lo _ _ htlt] at hprev
      have hbound2 := counts_lt h32 (s0.workers.set i Pc.active) hlen2
      refine ⟨hlen2, ?_, ?_, ?_⟩
      · show (s0.dual + (k_active - k_thieve)) % 2 ^ 64 =
          ((s0.workers.set i Pc.active).map contribA).sum * 2 ^ 32 +
          ((s0.workers.set i Pc.active).map contribT).sum
        rw [hword, word_promote (s0.workers.map contribA).sum (s0.workers.map contribT).sum (by omega) htge htlt, word]
        omega
      · exact keys_set s0.workers s0.epoch s0.epoch (le_refl _) i (Pc.active) hi
          (by intro k2 hk; simp [pcKey] at hk) hkeys
      · intro hA
        left
        show 1 ≤ ((s0.workers.set i (Pc.active)).map contribT).sum
        omega
    | promoteLast i h hwork hprev =>
      have hi : i < s0.workers.length := lt_length_of_getElem? h
      have htc := sum_map_set contribT s0.workers i (Pc.thieve) (Pc.promoteNotify) h
      have hac := sum_map_set contribA s0.workers i (Pc.thieve) (Pc.promoteNotify) h
      have hoT : contribT (Pc.thieve) = 1 := rfl
      have hoA : contribA (Pc.thieve) = 0 := rfl
      have hnT : contribT (Pc.promoteNotify) = 0 := rfl
      have hnA : contribA (Pc.promoteNotify) = 1 := rfl
      have hlen2 : (s0.workers.set i (Pc.promoteNotify)).length = n := by
        rw [List.length_set]; exact hlen
      have htge : 1 ≤ (s0.workers.map contribT).sum := elem_le_sum contribT s0.workers i Pc.thieve h
      have hbound2 := counts_lt h32 (s0.workers.set i Pc.promoteNotify) hlen2
      refine ⟨hlen2, ?_, ?_, ?_⟩
      · show (s0.dual + (k_active - k_thieve)) % 2 ^ 64 =
          ((s0.workers.set i Pc.promoteNotify).map contribA).sum * 2 ^ 32 +
          ((s0.workers.set i Pc.promoteNotify).map contribT).sum
        rw [hword, word_promote (s0.workers.map contribA).sum (s0.workers.map contribT).sum (by omega) htge htlt, word]
        omega
      · exact keys_set s0.workers s0.epoch s0.epoch (le_refl _) i (Pc.promoteNotify) hi
          (by intro k2 hk; simp [pcKey] at hk) hkeys
      · intro hA
        right; right
        exact ⟨i, Or.inr (by rw [List.getElem?_set_self hi])⟩
    | notifyOne i h =>
      have hi : i < s0.workers.length := lt_length_of_getElem? h
      have htc := sum_map_set contribT s0.workers i (Pc.promoteNotify) (Pc.active) h
      have hac := sum_map_set contribA s0.workers i (Pc.promoteNotify) (Pc.active) h
      have hoT : contribT (Pc.promoteNotify) = 0 := rfl
      have hoA : contribA (Pc.promoteNotify) = 1 := rfl
      have hnT : contribT (Pc.active) = 0 := rfl
      have hnA : contribA (Pc.active) = 1 := rfl
      have hlen2 : (s0.workers.set i (Pc.active)).length = n := by
        rw [List.length_set]; exact hlen
      refine ⟨hlen2, ?_, ?_, ?_⟩
      · show s0.dual =
          ((s0.workers.set i (Pc.active)).map contribA).sum * 2 ^ 32 +
          ((s0.workers.set i (Pc.active)).map contribT).sum
        rw [hword, word]
        omega
      · exact keys_set s0.workers s0.epoch (s0.epoch + 1) (by omega) i Pc.active hi
          (by intro k2 hk; simp [pcKey] at hk) hkeys
      · intro hA
        right; left
        exact noDorm_set s0.workers (s0.epoch + 1) (s0.epoch + 1) (le_refl _) i Pc.active hi
          (by simp [sleeperKey]) (noDorm_of_bump s0.workers s0.epoch hkeys)
    | demote i h =>
      have hi : i < s0.workers.length := lt_length_of_getElem? h
      have htc := sum_map_set contribT s0.workers i (Pc.active) (Pc.thieve) h
      have hac := sum_map_set contribA s0.workers i (Pc.active) (Pc.thieve) h
      have hoT : contribT (Pc.active) = 0 := rfl
      have hoA : contribA (Pc.active) = 1 := rfl
      have hnT : contribT (Pc.thieve) = 1 := rfl
      have hnA : contribA (Pc.thieve) = 0 := rfl
      have hlen2 : (s0.workers.set i (Pc.thieve)).length = n := by
        rw [List.length_set]; exact hlen
      have hage : 1 ≤ (s0.workers.map contribA).sum := elem_le_sum contribA s0.workers i Pc.active h
      have hbound2 := counts_lt h32 (s0.workers.set i Pc.thieve) hlen2
      refine ⟨hlen2, ?_, ?_, ?_⟩
      · show (s0.dual + (2 ^ 64 - (k_active - k_thieve))) % 2 ^ 64 =
          ((s0.workers.set i Pc.thieve).map contribA).sum * 2 ^ 32 +
          ((s0.workers.set i Pc.thieve).map contribT).sum
        rw [hword, word_demote (s0.workers.map contribA).sum (s0.workers.map contribT).sum hage halt (by omega), word]
        omega
      · exact keys_set s0.workers s0.epoch s0.epoch (le_refl _) i (Pc.thieve) hi
          (by intro k2 hk; simp [pcKey] at hk) hkeys
      · intro hA
        left
        show 1 ≤ ((s0.workers.set i (Pc.thieve)).map contribT).sum
        omega
    | fork i h =>
      exact ⟨hlen, hdec, hkeys, hpsi⟩
    | prepare i h =>
      have hi : i < s0.workers.length := lt_length_of_getElem? h
      have htc := sum_map_set contribT s0.workers i (Pc.thieve) (Pc.prepared s0.epoch) h
      have hac := sum_map_set contribA s0.workers i (Pc.thieve) (Pc.prepared s0.epoch) h
      have hoT : contribT (Pc.thieve) = 1 := rfl
      have hoA : contribA (Pc.thieve) = 0 := rfl
      have hnT : contribT (Pc.prepared s0.epoch) = 1 := rfl
      have hnA : contribA (Pc.prepared s0.epoch) = 0 := rfl
      have hlen2 : (s0.workers.set i (Pc.prepared s0.epoch)).length = n := by
        rw [List.length_set]; exact hlen
      refine ⟨hlen2, ?_, ?_, ?_⟩
      · show s0.dual =
          ((s0.workers.set i (Pc.prepared s0.epoch)).map contribA).sum * 2 ^ 32 +
          ((s0.workers.set i (Pc.prepared s0.epoch)).map contribT).sum
        rw [hword, word]
        omega
      · exact keys_set s0.workers s0.epoch s0.epoch (le_refl _) i (Pc.prepared s0.epoch) hi
          (by intro k2 hk; simp [pcKey] at hk; omega) hkeys
      · intro hA
        have hA2 : 1 ≤ ((s0.workers.set i (Pc.prepared s0.epoch)).map contribA).sum := hA
        have hA0 : 1 ≤ (s0.workers.map contribA).sum := by omega
        rcases hpsi hA0 with hT | hND | hC
        · left
          have hT2 : 1 ≤ (s0.workers.map contribT).sum := hT
          show 1 ≤ ((s0.workers.set i (Pc.prepared s0.epoch)).map contribT).sum
          omega
        · right; left
          exact noDorm_set s0.workers s0.epoch s0.epoch (le_refl _) i (Pc.prepared s0.epoch) hi
            (by simp [sleeperKey]) hND
        · right; right
          exact comp_preserve s0.workers i Pc.thieve (Pc.prepared s0.epoch) h
            (by simp) (by simp) hC
    | cancelFound i k h hwork =>
      have hi : i < s0.workers.length := lt_length_of_getElem? h
      have htge : 1 ≤ (s0.workers.map contribT).sum := elem_le_sum contribT s0.workers i (Pc.prepared k) h
      have htc := sum_map_set contribT s0.workers i (Pc.prepared k) (Pc.thieve) h
      have hac := sum_map_set contribA s0.workers i (Pc.prepared k) (Pc.thieve) h
      have hoT : contribT (Pc.prepared k) = 1 := rfl
      have hoA : contribA (Pc.prepared k) = 0 := rfl
      have hnT : contribT (Pc.thieve) = 1 := rfl
      have hnA : contribA (Pc.thieve) = 0 := rfl
      have hlen2 : (s0.workers.set i (Pc.thieve)).length = n := by
        rw [List.length_set]; exact hlen
      refine ⟨hlen2, ?_, ?_, ?_⟩
      · show s0.dual =
          ((s0.workers.set i (Pc.thieve)).map contribA).sum * 2 ^ 32 +
          ((s0.workers.set i (Pc.thieve)).map contribT).sum
        rw [hword, word]
        omega
      · exact keys_set s0.workers s0.epoch s0.epoch (le_refl _) i (Pc.thieve) hi
          (by intro k2 hk; simp [pcKey] at hk) hkeys
      · intro hA
        left
        show 1 ≤ ((s0.workers.set i (Pc.thieve)).map contribT).sum
        omega
    | stopExit i k h hstop =>
      have hi : i < s0.workers.length := lt_length_of_getElem? h
      have htc := sum_map_set contribT s0.workers i (Pc.prepared k) (Pc.exited) h
      have hac := sum_map_set contribA s0.workers i (Pc.prepared k) (Pc.exited) h
      have hoT : contribT (Pc.prepared k) = 1 := rfl
      have hoA : contribA (Pc.prepared k) = 0 := rfl
      have hnT : contribT (Pc.exited) = 1 := rfl
      have hnA : contribA (Pc.exited) = 0 := rfl
      have hlen2 : (s0.workers.set i (Pc.exited)).length = n := by
        rw [List.length_set]; exact hlen
      refine ⟨hlen2, ?_, ?_, ?_⟩
      · show s0.dual =
          ((s0.workers.set i (Pc.exited)).map contribA).sum * 2 ^ 32 +
          ((s0.workers.set i (Pc.exited)).map contribT).sum
        rw [hword, word]
        omega
      · exact keys_set s0.workers s0.epoch s0.epoch (le_refl _) i (Pc.exited) hi
          (by intro k2 hk; simp [pcKey] at hk) hkeys
      · intro hA
        have hA2 : 1 ≤ ((s0.workers.set i Pc.exited).map contribA).sum := hA
        have hA0 : 1 ≤ (s0.workers.map contribA).sum := by omega
        rcases hpsi hA0 with hT | hND | hC
        · left
          have hT2 : 1 ≤ (s0.workers.map contribT).sum := hT
          show 1 ≤ ((s0.workers.set i Pc.exited).map contribT).sum
          omega
        · right; left
          exact noDorm_set s0.workers s0.epoch s0.epoch (le_refl _) i Pc.exited hi
            (by simp [sleeperKey]) hND
        · right; right
          exact comp_preserve s0.workers i (Pc.prepared k) Pc.exited h
            (by simp) (by simp) hC
    | parkAbort i k h hT hA =>
      have hi : i < s0.workers.length := lt_length_of_getElem? h
      have htc := sum_map_set contribT s0.workers i (Pc.prepared k) (Pc.wakeUp) h
      have hac := sum_map_set contribA s0.workers i (Pc.prepared k) (Pc.wakeUp) h
      have hoT : contribT (Pc.prepared k) = 1 := rfl
      have hoA : contribA (Pc.prepared k) = 0 := rfl
      have hnT : contribT (Pc.wakeUp) = 0 := rfl
      have hnA : contribA (Pc.wakeUp) = 0 := rfl
      have hlen2 : (s0.workers.set i (Pc.wakeUp)).length = n := by
        rw [List.length_set]; exact hlen
      have htge : 1 ≤ (s0.workers.map contribT).sum := elem_le_sum contribT s0.workers i (Pc.prepared k) h
      refine ⟨hlen2, ?_, ?_, ?_⟩
      · show (s0.dual + (2 ^ 64 - k_thieve)) % 2 ^ 64 =
          ((s0.workers.set i Pc.wakeUp).map contribA).sum * 2 ^ 32 +
          ((s0.workers.set i Pc.wakeUp).map contribT).sum
        rw [hword, word_sub_thieve (s0.workers.map contribA).sum (s0.workers.map contribT).sum halt htge htlt, word]
        omega
      · exact keys_set s0.workers s0.epoch s0.epoch (le_refl _) i (Pc.wakeUp) hi
          (by intro k2 hk; simp [pcKey] at hk) hkeys
      · intro hA2
        right; right
        exact ⟨i, Or.inl (by rw [List.getElem?_set_self hi])⟩
    | parkCommit i k h hg =>
      have hi : i < s0.workers.length := lt_length_of_getElem? h
      have htc := sum_map_set contribT s0.workers i (Pc.prepared k) (Pc.preSleep k) h
      have hac := sum_map_set contribA s0.workers i (Pc.prepared k) (Pc.preSleep k) h
      have hoT : contribT (Pc.prepared k) = 1 := rfl
      have hoA : contribA (Pc.prepared k) = 0 := rfl
      have hnT : contribT (Pc.preSleep k) = 0 := rfl
      have hnA : contribA (Pc.preSleep k) = 0 := rfl
      have hlen2 : (s0.workers.set i (Pc.preSleep k)).length = n := by
        rw [List.length_set]; exact hlen
      have htge : 1 ≤ (s0.workers.map contribT).sum := elem_le_sum contribT s0.workers i (Pc.prepared k) h
      have hgt : ¬((s0.workers.map contribT).sum = 1 ∧ ¬((s0.workers.map contribA).sum = 0)) := by
        intro hc
        apply hg
        refine ⟨?_, ?_⟩
        · rw [hword, word_lo _ _ htlt]
          exact hc.1
        · rw [hword]
          intro h0
          exact hc.2 ((word_hi_zero_iff _ _ halt htlt).mp h0)
      refine ⟨hlen2, ?_, ?_, ?_⟩
      · show (s0.dual + (2 ^ 64 - k_thieve)) % 2 ^ 64 =
          ((s0.workers.set i (Pc.preSleep k)).map contribA).sum * 2 ^ 32 +
          ((s0.workers.set i (Pc.preSleep k)).map contribT).sum
        rw [hword, word_sub_thieve (s0.workers.map contribA).sum (s0.workers.map contribT).sum halt htge htlt, word]
        omega
      · have hkey : k ≤ s0.epoch := hkeys i k (by rw [h]; simp [pcKey])
        exact keys_set s0.workers s0.epoch s0.epoch (le_refl _) i (Pc.preSleep k) hi
          (by intro k2 hk; simp [pcKey] at hk; omega) hkeys
      · intro hA2
        left
        have hA2b : 1 ≤ ((s0.workers.set i (Pc.preSleep k)).map contribA).sum := hA2
        have hA3 : ¬((s0.workers.map contribA).sum = 0) := by omega
        have hne : ¬((s0.workers.map contribT).sum = 1) := fun hre => hgt ⟨hre, hA3⟩
        show 1 ≤ ((s0.workers.set i (Pc.preSleep k)).map contribT).sum
        omega
    | enterWait i k h =>
      have hi : i < s0.workers.length := lt_length_of_getElem? h
      have htc := sum_map_set contribT s0.workers i (Pc.preSleep k) (Pc.parked k) h
      have hac := sum_map_set contribA s0.workers i (Pc.preSleep k) (Pc.parked k) h
      have hoT : contribT (Pc.preSleep k) = 0 := rfl
      have hoA : contribA (Pc.preSleep k) = 0 := rfl
      have hnT : contribT (Pc.parked k) = 0 := rfl
      have hnA : contribA (Pc.parked k) = 0 := rfl
      have hlen2 : (s0.workers.set i (Pc.parked k)).length = n := by
        rw [List.length_set]; exact hlen
      refine ⟨hlen2, ?_, ?_, ?_⟩
      · show s0.dual =
          ((s0.workers.set i (Pc.parked k)).map contribA).sum * 2 ^ 32 +
          ((s0.workers.set i (Pc.parked k)).map contribT).sum
        rw [hword, word]
        omega
      · have hkey : k ≤ s0.epoch := hkeys i k (by rw [h]; simp [pcKey])
        exact keys_set s0.workers s0.epoch s0.epoch (le_refl _) i (Pc.parked k) hi
          (by intro k2 hk; simp [pcKey] at hk; omega) hkeys
      · intro hA2
        have hA2b : 1 ≤ ((s0.workers.set i (Pc.parked k)).map contribA).sum := hA2
        have hA0 : 1 ≤ (s0.workers.map contribA).sum := by omega
        rcases hpsi hA0 with hT2 | hND | hC
        · left
          have hT3 : 1 ≤ (s0.workers.map contribT).sum := hT2
          show 1 ≤ ((s0.workers.set i (Pc.parked k)).map contribT).sum
          omega
        · right; left
          intro j k2 hjk
          by_cases hij : i = j
          · subst hij
            rw [List.getElem?_set_self hi] at hjk
            simp [sleeperKey] at hjk
            subst hjk
            exact hND i k (by rw [h]; simp [sleeperKey])
          · rw [List.getElem?_set_ne hij] at hjk
            exact hND j k2 hjk
        · right; right
          exact comp_preserve s0.workers i (Pc.preSleep k) (Pc.parked k) h
            (by simp) (by simp) hC
    | earlyReturn i k h =>
      have hi : i < s0.workers.length := lt_length_of_getElem? h
      have htc := sum_map_set contribT s0.workers i (Pc.preSleep k) (Pc.wakeUp) h
      have hac := sum_map_set contribA s0.workers i (Pc.preSleep k) (Pc.wakeUp) h
      have hoT : contribT (Pc.preSleep k) = 0 := rfl
      have hoA : contribA (Pc.preSleep k) = 0 := rfl
      have hnT : contribT (Pc.wakeUp) = 0 := rfl
      have hnA : contribA (Pc.wakeUp) = 0 := rfl
      have hlen2 : (s0.workers.set i (Pc.wakeUp)).length = n := by
        rw [List.length_set]; exact hlen
      refine ⟨hlen2, ?_, ?_, ?_⟩
      · show s0.dual =
          ((s0.workers.set i (Pc.wakeUp)).map contribA).sum * 2 ^ 32 +
          ((s0.workers.set i (Pc.wakeUp)).map contribT).sum
        rw [hword, word]
        omega
      · exact keys_set s0.workers s0.epoch s0.epoch (le_refl _) i (Pc.wakeUp) hi
          (by intro k2 hk; simp [pcKey] at hk) hkeys
      · intro hA2
        right; right
        exact ⟨i, Or.inl (by rw [List.getElem?_set_self hi])⟩
    | wake i k h =>
      have hi : i < s0.workers.length := lt_length_of_getElem? h
      have htc := sum_map_set contribT s0.workers i (Pc.parked k) (Pc.wakeUp) h
      have hac := sum_map_set contribA s0.workers i (Pc.parked k) (Pc.wakeUp) h
      have hoT : contribT (Pc.parked k) = 0 := rfl
      have hoA : contribA (Pc.parked k) = 0 := rfl
      have hnT : contribT (Pc.wakeUp) = 0 := rfl
      have hnA : contribA (Pc.wakeUp) = 0 := rfl
      have hlen2 : (s0.workers.set i (Pc.wakeUp)).length = n := by
        rw [List.length_set]; exact hlen
      refine ⟨hlen2, ?_, ?_, ?_⟩
      · show s0.dual =
          ((s0.workers.set i (Pc.wakeUp)).map contribA).sum * 2 ^ 32 +
          ((s0.workers.set i (Pc.wakeUp)).map contribT).sum
        rw [hword, word]
        omega
      · exact keys_set s0.workers s0.epoch s0.epoch (le_refl _) i (Pc.wakeUp) hi
          (by intro k2 hk; simp [pcKey] at hk) hkeys
      · intro hA2
        right; right
        exact ⟨i, Or.inl (by rw [List.getElem?_set_self hi])⟩
    | submitWork =>
      refine ⟨hlen, hdec, ?_, ?_⟩
      · intro j k hjk
        show k ≤ s0.epoch + 1
        exact le_trans (hkeys j k hjk) (by omega)
      · intro hA
        right; left
        exact noDorm_of_bump s0.workers s0.epoch hkeys
    | setStop =>
      refine ⟨hlen, hdec, ?_, ?_⟩
      · intro j k hjk
        show k ≤ s0.epoch + 1
        exact le_trans (hkeys j k hjk) (by omega)
      · intro hA
        right; left
        exact noDorm_of_bump s0.workers s0.epoch hkeys

lemma step_cast {s t u : Pool} (h : Step s t) (he : t = u) : Step s u := he ▸ h

lemma reach_cast {n : Nat} {s u : Pool} (h : Reach n s) (he : s = u) : Reach n u := he ▸ h

lemma reach_c7Cex : Reach 1 c7CexState := by
  have r0 : Reach 1 ⟨[Pc.wakeUp], 0, 0, false, 0⟩ := reach_cast Reach.init (by decide)
  have r1 : Reach 1 ⟨[Pc.thieve], 1, 0, false, 0⟩ :=
    Reach.step r0 (step_cast (Step.entry _ 0 (by decide)) (by decide))
  have r2 : Reach 1 ⟨[Pc.prepared 0], 1, 0, false, 0⟩ :=
    Reach.step r1 (step_cast (Step.prepare _ 0 (by decide)) (by decide))
  exact Reach.step r2 (step_cast (Step.parkCommit _ 0 0 (by decide) (by decide)) (by decide))

lemma reach_c1Pre : Reach 3 c1PreState := by
  have r0 : Reach 3 ⟨[Pc.wakeUp, Pc.wakeUp, Pc.wakeUp], 0, 0, false, 0⟩ :=
    reach_cast Reach.init (by decide)
  have r1 : Reach 3 ⟨[Pc.wakeUp, Pc.wakeUp, Pc.wakeUp], 0, 1, false, 1⟩ :=
    Reach.step r0 (step_cast (Step.submitWork _) (by decide))
  have r2 : Reach 3 ⟨[Pc.thieve, Pc.wakeUp, Pc.wakeUp], 1, 1, false, 1⟩ :=
    Reach.step r1 (step_cast (Step.entry _ 0 (by decide)) (by decide))
  have r3 : Reach 3 ⟨[Pc.promoteNotify, Pc.wakeUp, Pc.wakeUp], 2 ^ 32, 1, false, 0⟩ :=
    Reach.step r2 (step_cast (Step.promoteLast _ 0 (by decide) (by decide) (by decide)) (by decide))
  have r4 : Reach 3 ⟨[Pc.active, Pc.wakeUp, Pc.wakeUp], 2 ^ 32, 2, false, 0⟩ :=
    Reach.step r3 (step_cast (Step.notifyOne _ 0 (by decide)) (by decide))
  have r5 : Reach 3 ⟨[Pc.active, Pc.thieve, Pc.wakeUp], 2 ^ 32 + 1, 2, false, 0⟩ :=
    Reach.step r4 (step_cast (Step.entry _ 1 (by decide)) (by decide))
  have r6 : Reach 3 ⟨[Pc.active, Pc.thieve, Pc.thieve], 2 ^ 32 + 2, 2, false, 0⟩ :=
    Reach.step r5 (step_cast (Step.entry _ 2 (by decide)) (by decide))
  have r7 : Reach 3 ⟨[Pc.active, Pc.prepared 2, Pc.thieve], 2 ^ 32 + 2, 2, false, 0⟩ :=
    Reach.step r6 (step_cast (Step.prepare _ 1 (by decide)) (by decide))
  have r8 : Reach 3 ⟨[Pc.active, Pc.preSleep 2, Pc.thieve], 2 ^ 32 + 1, 2, false, 0⟩ :=
    Reach.step r7 (step_cast (Step.parkCommit _ 1 2 (by decide) (by decide)) (by decide))
  have r9 : Reach 3 ⟨[Pc.active, Pc.parked 2, Pc.thieve], 2 ^ 32 + 1, 2, false, 0⟩ :=
    Reach.step r8 (step_cast (Step.enterWait _ 1 2 (by decide)) (by decide))
  exact Reach.step r9 (step_cast (Step.prepare _ 2 (by decide)) (by decide))

lemma reach_c1Wit : Reach 1 c1WitState := by
  have r0 : Reach 1 ⟨[Pc.wakeUp], 0, 0, false, 0⟩ := reach_cast Reach.init (by decide)
  have r1 : Reach 1 ⟨[Pc.wakeUp], 0, 1, false, 1⟩ :=
    Reach.step r0 (step_cast (Step.submitWork _) (by decide))
  have r2 : Reach 1 ⟨[Pc.thieve], 1, 1, false, 1⟩ :=
    Reach.step r1 (step_cast (Step.entry _ 0 (by decide)) (by decide))
  exact Reach.step r2 (step_cast (Step.promoteLast _ 0 (by decide) (by decide) (by decide)) (by decide))

/-- C7 counterexample: invariant I2 read with S as the number of workers
currently parked in the notifier is violated at a reachable state.  With
one worker, after the entry increment, prepare_wait and the park
fetch_sub, the worker sits between the decrement and its wait call: both
counter lanes are zero and no worker is parked, so T + A + S = 0 while
N = 1. -/
theorem c7_counterexample :
    Reach 1 c7CexState ∧
    ¬((c7CexState.dual &&& k_thieve_mask) + (c7CexState.dual >>> 32) +
        parkedCount c7CexState = 1) :=
  ⟨reach_c7Cex, by decide⟩

/-- C7 (amended): at every reachable state of the pool with n < 2 ^ 32
workers, T + A + S = n, where T and A are the two lanes of the dual
counter and S counts the workers that are parked in the notifier,
together with those between their park decrement and their wait call and
those at the loop entry before their thief increment (not yet entered,
just woken, or compensating an aborted sleep); workers that exited
through the stop path stay counted in the T lane as ghost thieves. -/
theorem c7_dual_counter_conservation {n : Nat} {s : Pool} (h32 : n < 2 ^ 32)
    (hr : Reach n s) :
    (s.dual &&& k_thieve_mask) + (s.dual >>> 32) + sCount s = n := by
  obtain ⟨hlen, hdec, -, -⟩ := reach_inv h32 hr
  have hbounds := counts_lt h32 s.workers hlen
  have hword : s.dual = word ((s.workers.map contribA).sum) ((s.workers.map contribT).sum) := hdec
  rw [hword, word_lo _ _ hbounds.1, word_shr _ _ hbounds.1]
  have h3 := three_sum s.workers
  show (s.workers.map contribT).sum + (s.workers.map contribA).sum +
    (s.workers.map contribS).sum = n
  omega

/-- C7 witness: the conservation theorem applied to the initial state of
a one-worker pool. -/
theorem c7_witness :
    Reach 1 (initPool 1) ∧
    ((initPool 1).dual &&& k_thieve_mask) + ((initPool 1).dual >>> 32) +
      sCount (initPool 1) = 1 :=
  ⟨Reach.init, c7_dual_counter_conservation (by decide) Reach.init⟩

/-- C1 counterexample: the claimed inductiveness fails.  There is a
reachable three-worker state satisfying invariant I1 (active lane and
thief lane both one, one worker parked) from which one single atomic
transition of the claimed step relation, the park fetch_sub of the last
thief while the active lane is nonzero, leads to a state violating I1
under both readings of S: the active lane is nonzero, the thief lane is
zero, one worker is parked, and n - T - A is nonzero. -/
theorem c1_counterexample :
    Reach 3 c1PreState ∧
    Step c1PreState c1PostState ∧
    (c1PreState.dual &&& k_active_mask ≠ 0 ∧
      1 ≤ c1PreState.dual &&& k_thieve_mask) ∧
    (c1PostState.dual &&& k_active_mask ≠ 0 ∧
      c1PostState.dual &&& k_thieve_mask = 0 ∧
      parkedCount c1PostState ≠ 0 ∧
      3 - (c1PostState.dual &&& k_thieve_mask) - (c1PostState.dual >>> 32) ≠ 0) :=
  ⟨reach_c1Pre,
   step_cast (Step.parkAbort _ 2 2 (by decide) (by decide) (by decide)) (by decide),
   by decide, by decide⟩

/-- C1 (amended): the repaired central invariant holds at every reachable
state of the pool with n < 2 ^ 32 workers: if the active lane of the dual
counter is nonzero, then the thief lane is at least one, or every worker
that has performed its park decrement holds a stale key (a notify
happened after its prepare_wait, so it cannot stay blocked), or some
worker is committed to restoring the thief count (it is at the loop entry
about to re-increment, or owes the post-promotion notify_one).  The
literal claim fails only transiently, and the violating worker itself
restores the invariant, as the counterexample records. -/
theorem c1_repaired_invariant {n : Nat} {s : Pool} (h32 : n < 2 ^ 32)
    (hr : Reach n s) :
    s.dual &&& k_active_mask ≠ 0 →
    1 ≤ s.dual &&& k_thieve_mask ∨ NoDormantSleeper s ∨ HasCompensator s := by
  obtain ⟨hlen, hdec, -, hpsi⟩ := reach_inv h32 hr
  intro hA
  have hbounds := counts_lt h32 s.workers hlen
  have hword : s.dual = word ((s.workers.map contribA).sum) ((s.workers.map contribT).sum) := hdec
  rw [hword] at hA
  have hA2 : ¬((s.workers.map contribA).sum = 0) := by
    intro h0
    exact hA ((word_hi_zero_iff _ _ hbounds.2 hbounds.1).mpr h0)
  have hA0 : 1 ≤ (s.workers.map contribA).sum := by omega
  rcases hpsi hA0 with hT | hND | hC
  · left
    rw [hword, word_lo _ _ hbounds.1]
    exact hT
  · right; left
    exact hND
  · right; right
    exact hC

/-- C1 witness: the repaired invariant applied at a reachable one-worker
state whose active lane is nonzero (the worker just promoted itself as
the last thief and owes a notify). -/
theorem c1_witness :
    Reach 1 c1WitState ∧ c1WitState.dual &&& k_active_mask ≠ 0 ∧
    (1 ≤ c1WitState.dual &&& k_thieve_mask ∨ NoDormantSleeper c1WitState ∨
      HasCompensator c1WitState) :=
  ⟨reach_c1Wit, by decide,
   c1_repaired_invariant (by decide) reach_c1Wit (by decide)⟩

/-- C4: thief_round_trip performs the thief-to-active promotion as one
single fetch_add of (k_active - k_thieve) on the dual counter word (a
word with active lane a and thief lane t becomes the word with lanes
a + 1 and t - 1 in that one atomic update), and notify_one is called if
and only if the thief lane read just before that fetch_add was exactly 1. -/
theorem c4_last_thief_wake (a t : Nat) (ha : a + 1 < 2 ^ 32) (ht1 : 1 ≤ t)
    (ht : t < 2 ^ 32) :
    ((thief_round_trip (word a t)).notified = true ↔ t = 1) ∧
    (thief_round_trip (word a t)).afterPromote =
      (word a t + (k_active - k_thieve)) % 2 ^ 64 ∧
    (thief_round_trip (word a t)).afterPromote = word (a + 1) (t - 1) := by
  refine ⟨?_, rfl, ?_⟩
  · show ((word a t &&& k_thieve_mask) == 1) = true ↔ t = 1
    rw [word_lo _ _ ht]
    simp
  · show (word a t + (k_active - k_thieve)) % 2 ^ 64 = word (a + 1) (t - 1)
    exact word_promote a t ha ht1 ht

/-- C4 witness: the promotion and notify decision evaluated at the word
with one active and one thief. -/
theorem c4_witness :
    (1 : Nat) + 1 < 2 ^ 32 ∧ (1 : Nat) ≤ 1 ∧ (1 : Nat) < 2 ^ 32 ∧
    (((thief_round_trip (word 1 1)).notified = true ↔ (1 : Nat) = 1) ∧
      (thief_round_trip (word 1 1)).afterPromote =
        (word 1 1 + (k_active - k_thieve)) % 2 ^ 64 ∧
      (thief_round_trip (word 1 1)).afterPromote = word 2 0) :=
  ⟨by decide, by decide, by decide,
   c4_last_thief_wake 1 1 (by decide) (by decide) (by decide)⟩

/-- C5: in the park attempt with no submission found and the stop flag
clear, the park fetch_sub happens; when the value it read has thief lane
exactly 1 and nonzero active lane the worker never calls wait on that
iteration and instead immediately re-increments the thief lane (the
counter is restored and control returns to the thief loop); in every
other case of that decrement the worker proceeds to wait. -/
theorem c5_sleep_abort_compensation (d : Nat) (hd : d < 2 ^ 64) :
    ((d &&& k_thieve_mask = 1 ∧ d &&& k_active_mask ≠ 0) →
      (park_attempt false false d).actions =
        [.prepareWait, .fetchSubThieve, .fetchAddThieve] ∧
      ParkAction.waitOnKey ∉ (park_attempt false false d).actions ∧
      (park_attempt false false d).next = ParkNext.continueAsThief ∧
      (park_attempt false false d).dual = d) ∧
    (¬(d &&& k_thieve_mask = 1 ∧ d &&& k_active_mask ≠ 0) →
      ParkAction.waitOnKey ∈ (park_attempt false false d).actions ∧
      (park_attempt false false d).next = ParkNext.sleepUntilNotified ∧
      (park_attempt false false d).dual = (d + (2 ^ 64 - k_thieve)) % 2 ^ 64) := by
  have hsplit : park_attempt false false d =
      if d &&& k_thieve_mask = 1 ∧ d &&& k_active_mask ≠ 0 then
        ⟨[.prepareWait, .fetchSubThieve, .fetchAddThieve],
         ((d + (2 ^ 64 - k_thieve)) % 2 ^ 64 + k_thieve) % 2 ^ 64,
         .continueAsThief⟩
      else
        ⟨[.prepareWait, .fetchSubThieve, .waitOnKey],
         (d + (2 ^ 64 - k_thieve)) % 2 ^ 64,
         .sleepUntilNotified⟩ := rfl
  constructor
  · intro hc
    have hd1 : 1 ≤ d := by
      have h := hc.1
      have h2 := @Nat.and_le_left d k_thieve_mask
      omega
    rw [hsplit, if_pos hc]
    refine ⟨rfl, ?_, rfl, ?_⟩
    case _ =>
      show ParkAction.waitOnKey ∉
        [ParkAction.prepareWait, ParkAction.fetchSubThieve, ParkAction.fetchAddThieve]
      decide
    show ((d + (2 ^ 64 - k_thieve)) % 2 ^ 64 + k_thieve) % 2 ^ 64 = d
    rw [k_thieve_eq]
    omega
  · intro hc
    rw [hsplit, if_neg hc]
    refine ⟨?_, rfl, rfl⟩
    show ParkAction.waitOnKey ∈
      [ParkAction.prepareWait, ParkAction.fetchSubThieve, ParkAction.waitOnKey]
    decide

/-- C5 witness: the abort branch evaluated at the word with one active
and one thief, and the sleep branch at the word with two thieves. -/
theorem c5_witness :
    (2 ^ 32 + 1 : Nat) < 2 ^ 64 ∧ (2 : Nat) < 2 ^ 64 ∧
    ((park_attempt false false (2 ^ 32 + 1)).actions =
        [.prepareWait, .fetchSubThieve, .fetchAddThieve] ∧
      (park_attempt false false (2 ^ 32 + 1)).dual = 2 ^ 32 + 1) ∧
    (ParkAction.waitOnKey ∈ (park_attempt false false 2).actions ∧
      (park_attempt false false 2).next = ParkNext.sleepUntilNotified) := by
  have h1 := (c5_sleep_abort_compensation (2 ^ 32 + 1) (by decide)).1 (by decide)
  have h2 := (c5_sleep_abort_compensation 2 (by decide)).2 (by decide)
  exact ⟨by decide, by decide, ⟨h1.1, h1.2.2.2⟩, ⟨h2.1, h2.2.1⟩⟩

/-- C6: when the worker in its park attempt finds no submission on the
re-check and observes the stop flag set, it calls cancel_wait and exits
the main loop; the dual counter is not touched on this path, in
particular the thief lane is not decremented (the ghost thief). -/
theorem c6_ghost_thief_on_shutdown (d : Nat) :
    (park_attempt false true d).actions = [.prepareWait, .cancelWait] ∧
    ParkAction.cancelWait ∈ (park_attempt false true d).actions ∧
    (park_attempt false true d).next = ParkNext.exitWorker ∧
    (park_attempt false true d).dual = d ∧
    ParkAction.fetchSubThieve ∉ (park_attempt false true d).actions ∧
    ParkAction.waitOnKey ∉ (park_attempt false true d).actions := by
  refine ⟨rfl, ?_, rfl, rfl, ?_, ?_⟩
  · show ParkAction.cancelWait ∈ [ParkAction.prepareWait, ParkAction.cancelWait]
    decide
  · show ParkAction.fetchSubThieve ∉ [ParkAction.prepareWait, ParkAction.cancelWait]
    decide
  · show ParkAction.waitOnKey ∉ [ParkAction.prepareWait, ParkAction.cancelWait]
    decide

/-- C6 witness: the stop path evaluated at a concrete counter value. -/
theorem c6_witness :
    (park_attempt false true 7).actions = [.prepareWait, .cancelWait] ∧
    ParkAction.cancelWait ∈ (park_attempt false true 7).actions ∧
    (park_attempt false true 7).next = ParkNext.exitWorker ∧
    (park_attempt false true 7).dual = 7 ∧
    ParkAction.fetchSubThieve ∉ (park_attempt false true 7).actions ∧
    ParkAction.waitOnKey ∉ (park_attempt false true 7).actions :=
  c6_ghost_thief_on_shutdown 7

/-- C8: packed-lane arithmetic of the dual counter constants.  The
promotion constant k_active - k_thieve equals 2 ^ 32 - 1; adding it
modulo 2 ^ 64 to any word whose thief lane is at least 1 and whose
active lane is at most 2 ^ 32 - 2 decrements the thief lane by one and
increments the active lane by one with no carry across the lane
boundary, and subtracting the same constant from the resulting word
restores the original word exactly. -/
theorem c8_packed_lane_arithmetic (w : Nat) (hw : w < 2 ^ 64)
    (ht1 : 1 ≤ w &&& k_thieve_mask) (ha : w >>> 32 ≤ 2 ^ 32 - 2) :
    k_active - k_thieve = 2 ^ 32 - 1 ∧
    ((w + (k_active - k_thieve)) % 2 ^ 64) &&& k_thieve_mask =
      (w &&& k_thieve_mask) - 1 ∧
    ((w + (k_active - k_thieve)) % 2 ^ 64) >>> 32 = (w >>> 32) + 1 ∧
    (((w + (k_active - k_thieve)) % 2 ^ 64) + (2 ^ 64 - (k_active - k_thieve)))
      % 2 ^ 64 = w := by
  have hsh : w >>> 32 = w / 2 ^ 32 := Nat.shiftRight_eq_div_pow w 32
  have hms : w &&& k_thieve_mask = w % 2 ^ 32 := by
    rw [k_thieve_mask_eq, Nat.and_pow_two_sub_one_eq_mod]
  have hweq : w = word (w / 2 ^ 32) (w % 2 ^ 32) := by
    rw [word]
    omega
  have hdiv : w / 2 ^ 32 + 1 < 2 ^ 32 := by omega
  have hmod1 : 1 ≤ w % 2 ^ 32 := by omega
  have hmod : w % 2 ^ 32 < 2 ^ 32 := Nat.mod_lt w (by norm_num)
  have hprom : (w + (k_active - k_thieve)) % 2 ^ 64 =
      word (w / 2 ^ 32 + 1) (w % 2 ^ 32 - 1) := by
    calc (w + (k_active - k_thieve)) % 2 ^ 64
        = (word (w / 2 ^ 32) (w % 2 ^ 32) + (k_active - k_thieve)) % 2 ^ 64 := by
          rw [← hweq]
      _ = word (w / 2 ^ 32 + 1) (w % 2 ^ 32 - 1) :=
          word_promote _ _ hdiv hmod1 hmod
  refine ⟨kAT_eq, ?_, ?_, ?_⟩
  · rw [hprom, word_lo _ _ (by omega), hms]
  · rw [hprom, word_shr _ _ (by omega), hsh]
  · rw [hprom]
    rw [word_demote (w / 2 ^ 32 + 1) (w % 2 ^ 32 - 1) (by omega) hdiv (by omega)]
    rw [word]
    omega

/-- C8 witness: the lane arithmetic evaluated at the word with active
lane 1 and thief lane 2. -/
theorem c8_witness :
    (2 ^ 32 + 2 : Nat) < 2 ^ 64 ∧
    1 ≤ (2 ^ 32 + 2 : Nat) &&& k_thieve_mask ∧
    (2 ^ 32 + 2 : Nat) >>> 32 ≤ 2 ^ 32 - 2 ∧
    (k_active - k_thieve = 2 ^ 32 - 1 ∧
      (((2 ^ 32 + 2 : Nat) + (k_active - k_thieve)) % 2 ^ 64) &&& k_thieve_mask =
        ((2 ^ 32 + 2 : Nat) &&& k_thieve_mask) - 1 ∧
      (((2 ^ 32 + 2 : Nat) + (k_active - k_thieve)) % 2 ^ 64) >>> 32 =
        ((2 ^ 32 + 2 : Nat) >>> 32) + 1 ∧
      ((((2 ^ 32 + 2 : Nat) + (k_active - k_thieve)) % 2 ^ 64) +
        (2 ^ 64 - (k_active - k_thieve))) % 2 ^ 64 = 2 ^ 32 + 2) :=
  ⟨by decide, by decide, by decide,
   c8_packed_lane_arithmetic (2 ^ 32 + 2) (by decide) (by decide) (by decide)⟩

/-- C2: evaluation of worker_init at the failing input.  On a fresh
thread whose fibre constructor throws, the source catch block destroys
the thread context but does not rethrow: worker_init returns normally
(exit value returned, not rethrown) and leaves both thread-local guards
set while neither slot is constructed.  This contradicts the specified
behaviour (destroy the context and rethrow the original error, leaving
the guards clear), so the code, not the claim, is wrong. -/
theorem c2_fibre_failure_not_rethrown :
    worker_init tlsFresh true =
      ({ has_fibre := true, has_context := true,
         contextConstructed := false, fibreConstructed := false },
       InitExit.returned) ∧
    (worker_init tlsFresh true).2 ≠ InitExit.rethrown ∧
    (worker_init tlsFresh true).1.has_fibre = true ∧
    (worker_init tlsFresh true).1.has_context = true ∧
    (worker_init tlsFresh true).1.contextConstructed = false ∧
    (worker_init tlsFresh true).1.fibreConstructed = false := by
  refine ⟨rfl, by decide, rfl, rfl, rfl, rfl⟩

/-- C3: misuse detection of the thread-local guard logic.  A second
worker_init on a thread whose guards are both set throws the
already-initialized error and constructs nothing; finalize with a
context pointer different from the thread-local one throws the
wrong-thread error and destroys nothing; finalize while either guard is
clear (before any init, or the second of two finalize calls) throws the
not-initialized error and destroys nothing; and after a successful init
and finalize, a repeated finalize with the same pointer throws rather
than destroying twice. -/
theorem c3_misuse_detection (tls : Tls) (addr ptr : Nat) :
    (tls.has_context = true → tls.has_fibre = true →
      ∀ b : Bool, worker_init tls b = (tls, InitExit.threwAlreadyInit)) ∧
    (ptr ≠ addr → finalize tls addr ptr = (tls, FinalizeExit.threwWrongThread)) ∧
    (tls.has_context = false ∨ tls.has_fibre = false →
      (finalize tls addr ptr).1 = tls ∧
      (finalize tls addr ptr).2 ≠ FinalizeExit.finalized) ∧
    (finalize (finalize (worker_init tlsFresh false).1 addr addr).1 addr addr =
      ((finalize (worker_init tlsFresh false).1 addr addr).1,
       FinalizeExit.threwNotInitialized)) := by
  refine ⟨?_, ?_, ?_, ?_⟩
  · intro h1 h2 b
    simp [worker_init, h1, h2]
  · intro h
    simp [finalize, h]
  · intro h
    by_cases hpa : ptr = addr
    · subst hpa
      rcases h with h | h <;> simp [finalize, h]
    · simp [finalize, hpa]
  · simp [worker_init, tlsFresh, finalize]

/-- C3 witness: the misuse paths evaluated at concrete thread-local
states and addresses. -/
theorem c3_witness :
    (worker_init ⟨true, true, true, true⟩ false =
      (⟨true, true, true, true⟩, InitExit.threwAlreadyInit)) ∧
    (finalize tlsFresh 0 1 = (tlsFresh, FinalizeExit.threwWrongThread)) ∧
    ((finalize tlsFresh 0 0).1 = tlsFresh ∧
      (finalize tlsFresh 0 0).2 ≠ FinalizeExit.finalized) ∧
    (finalize (finalize (worker_init tlsFresh false).1 0 0).1 0 0 =
      ((finalize (worker_init tlsFresh false).1 0 0).1,
       FinalizeExit.threwNotInitialized)) :=
  ⟨(c3_misuse_detection ⟨true, true, true, true⟩ 0 1).1 rfl rfl false,
   (c3_misuse_detection tlsFresh 0 1).2.1 (by decide),
   (c3_misuse_detection tlsFresh 0 0).2.2.1 (Or.inl rfl),
   (c3_misuse_detection tlsFresh 0 0).2.2.2⟩

/-- C9: schedule draws an index from the distribution whose support is
exactly the interval from 0 to n - 1 (for a pool of n workers with
1 ≤ n < 2 ^ 64 the constructor upper bound n - 1 computed on size_t does
not wrap), calls submit of the context at the drawn index, and that
submit first enqueues into the submission queue of the chosen worker and
only afterwards broadcasts notify_all. -/
theorem c9_noisy_submission (n r : Nat) (hn : 1 ≤ n) (hlt : n < 2 ^ 64)
    (hr : r ≤ distUpper n) :
    distUpper n = n - 1 ∧
    r < contextsLen n ∧
    (schedule r).1 = r ∧
    (schedule r).2 = [SubmitEffect.enqueue, SubmitEffect.notifyAll] ∧
    submitEffects = [SubmitEffect.enqueue, SubmitEffect.notifyAll] := by
  have hup : distUpper n = n - 1 := by
    rw [distUpper]
    omega
  rw [hup] at hr
  refine ⟨hup, by rw [contextsLen]; omega, rfl, rfl, rfl⟩

/-- C9 witness: a pool of four workers and the draw 2. -/
theorem c9_witness :
    (1 : Nat) ≤ 4 ∧ (4 : Nat) < 2 ^ 64 ∧ (2 : Nat) ≤ distUpper 4 ∧
    (distUpper 4 = 3 ∧ 2 < contextsLen 4 ∧ (schedule 2).1 = 2 ∧
      (schedule 2).2 = [SubmitEffect.enqueue, SubmitEffect.notifyAll] ∧
      submitEffects = [SubmitEffect.enqueue, SubmitEffect.notifyAll]) :=
  ⟨by decide, by decide, by decide,
   c9_noisy_submission 4 2 (by decide) (by decide) (by decide)⟩

/-- C10: implicit worker-count precondition of the pool.  For n = 0 the
constructor initialises the distribution with upper bound n - 1 computed
on size_t, which wraps to 2 ^ 64 - 1, while m_contexts stays empty, so
every index a schedule draw can produce is out of bounds; for every
n ≥ 1 the upper bound is n - 1 and every drawn index is a valid context
index. -/
theorem c10_zero_workers_out_of_bounds (n : Nat) (hn : n < 2 ^ 64) :
    (n = 0 →
      distUpper n = 2 ^ 64 - 1 ∧ contextsLen n = 0 ∧
      ∀ r : Nat, ¬ r < contextsLen n) ∧
    (1 ≤ n →
      distUpper n = n - 1 ∧
      ∀ r : Nat, r ≤ distUpper n → r < contextsLen n) := by
  constructor
  · intro h0
    subst h0
    refine ⟨by rw [distUpper]; omega, rfl, ?_⟩
    intro r
    rw [contextsLen]
    omega
  · intro h1
    have hup : distUpper n = n - 1 := by
      rw [distUpper]
      omega
    refine ⟨hup, ?_⟩
    intro r hrle
    rw [hup] at hrle
    rw [contextsLen]
    omega

/-- C10 witness: the underflow case n = 0 and the in-bounds case n = 2. -/
theorem c10_witness :
    ((0 : Nat) < 2 ^ 64 ∧ (2 : Nat) < 2 ^ 64) ∧
    (distUpper 0 = 2 ^ 64 - 1 ∧ contextsLen 0 = 0 ∧
      ∀ r : Nat, ¬ r < contextsLen 0) ∧
    (distUpper 2 = 1 ∧ ∀ r : Nat, r ≤ distUpper 2 → r < contextsLen 2) :=
  ⟨⟨by decide, by decide⟩,
   (c10_zero_workers_out_of_bounds 0 (by decide)).1 rfl,
   (c10_zero_workers_out_of_bounds 2 (by decide)).2 (by decide)⟩

end LazyPool
